import Mathlib

set_option linter.unusedSectionVars false

/-!
Verification of the portfolio simulation engine of the M&A arbitrage
backtesting repository.

The engine exists in three variants, embedded here over exact rational
arithmetic:

* `backtest` / `execOrder` — the simple-key variant (`backtester.py`):
  prices are indexed by `(date, deal_id)`, a duplicate-price warning is
  printed, an order at a key with no price raises `ValueError`, and an
  order at a key with two or more price rows fails when the looked-up
  sub-series cannot be converted to a float.
* `execOrderStock` / `stockPrice?` — the composite-key variant
  (`backtester_stock.py`): prices are indexed by
  `(date, deal_id, price_type)` and duplicate rows are averaged by a
  group-by before the lookup table is built.
* `execOrderStrat` — the strategy-module variant (`strategy.py`): the
  price lookup takes element 0 of the matching sub-series with
  `.iloc[0]`; a unique key makes `.loc` return a scalar, on which
  `.iloc` raises `AttributeError`, so only a duplicated key fills.

Dates are modelled as integers, instrument keys as an arbitrary type `K`
with decidable equality, money and share quantities as rationals.  The
position dictionary is modelled as an association list with the Python
dict update semantics: update in place when the key exists, append
otherwise.
-/

/-- An order row: date, instrument key, signed share quantity
(`shares > 0` buys, `shares < 0` sells). -/
structure Order (K : Type) where
  date : ℤ
  key : K
  shares : ℚ
deriving DecidableEq, Repr

/-- A price row: date, instrument key, price. -/
structure PriceRec (K : Type) where
  date : ℤ
  key : K
  price : ℚ
deriving DecidableEq, Repr

/-- The mutable simulation state: the cash scalar and the positions
dictionary `{key: shares}`. -/
structure BtState (K : Type) where
  cash : ℚ
  positions : List (K × ℚ)
deriving DecidableEq, Repr

/-- One row of the valuation trace, mirroring the dictionary appended to
`portfolio_history`: date, end-of-day value, invested capital, and the
filtered holdings snapshot. -/
structure TraceRec (K : Type) where
  date : ℤ
  value : ℚ
  invested : ℚ
  holdings : List (K × ℚ)
deriving DecidableEq, Repr

/-- The exceptions the engine can raise during order execution:
`priceNotFound` is the explicit `ValueError` carrying the date and the
instrument key; `duplicatePrice` is the failure of `float(...)` on a
multi-row lookup result in the simple-key variant; `scalarIloc` is the
`AttributeError` of the strategy-module variant, whose `.iloc[0]` is
applied to the scalar that `.loc` returns for a unique key. -/
inductive BtError (K : Type) where
  | priceNotFound (date : ℤ) (key : K)
  | duplicatePrice (date : ℤ) (key : K)
  | scalarIloc (date : ℤ) (key : K)
deriving DecidableEq, Repr

variable {K : Type} [DecidableEq K]

/-- The text of the raised exception; `priceNotFound` renders the
f-string of `backtester.py`, which embeds the date and the key. -/
def errorText [ToString K] : BtError K → String
  | .priceNotFound d k =>
      "Price not found for date " ++ toString d ++ " and event_id " ++ toString k
  | .duplicatePrice _ _ => "cannot convert the series to float"
  | .scalarIloc _ _ => "float object has no attribute iloc"

/-- All prices recorded for `(d, k)`, in row order — the sub-series
selected by `price_lookup.loc[(d, k)]`. -/
def matchingPrices (prices : List (PriceRec K)) (d : ℤ) (k : K) : List ℚ :=
  (prices.filter (fun r => decide (r.date = d ∧ r.key = k))).map PriceRec.price

/-- `positions.get(k, 0)`: the stored share count, defaulting to zero. -/
def getPos : List (K × ℚ) → K → ℚ
  | [], _ => 0
  | kv :: rest, k => if kv.1 = k then kv.2 else getPos rest k

/-- `positions[k] = positions.get(k, 0) + q`: Python dict update — the
entry is updated in place when present and appended otherwise. -/
def updatePos : List (K × ℚ) → K → ℚ → List (K × ℚ)
  | [], k, q => [(k, q)]
  | kv :: rest, k, q =>
      if kv.1 = k then (kv.1, kv.2 + q) :: rest else kv :: updatePos rest k q

/-- The keys of the positions dictionary, in insertion order. -/
def keysOf (l : List (K × ℚ)) : List K := l.map Prod.fst

/-- The positions dictionary never holds two entries for one key. -/
def NoDupKeys (l : List (K × ℚ)) : Prop := (l.map Prod.fst).Nodup

/-- Execute one order in the simple-key variant (`backtester.py`):
no price row raises the `ValueError`; exactly one row fills the order at
that price (`cash -= price * shares`; `positions[k] += shares`); two or
more rows make `float(...)` fail on the sub-series. -/
def execOrder (prices : List (PriceRec K)) (d : ℤ) (s : BtState K) (o : Order K) :
    Except (BtError K) (BtState K) :=
  match matchingPrices prices d o.key with
  | [] => .error (.priceNotFound d o.key)
  | [p] => .ok ⟨s.cash - p * o.shares, updatePos s.positions o.key o.shares⟩
  | _ :: _ :: _ => .error (.duplicatePrice d o.key)

/-- Execute one order in the strategy-module variant (`strategy.py`):
no price row raises the `ValueError`; exactly one row makes `.loc`
return a scalar, so `.iloc[0]` raises `AttributeError`; two or more
rows make `.loc` return a sub-series, whose element 0 — the first
matching row's price — fills the order. -/
def execOrderStrat (prices : List (PriceRec K)) (d : ℤ) (s : BtState K) (o : Order K) :
    Except (BtError K) (BtState K) :=
  match matchingPrices prices d o.key with
  | [] => .error (.priceNotFound d o.key)
  | [_] => .error (.scalarIloc d o.key)
  | p :: _ :: _ => .ok ⟨s.cash - p * o.shares, updatePos s.positions o.key o.shares⟩

/-- The composite-key variant's price oracle (`backtester_stock.py`):
the group-by with `agg({price: mean})` replaces the rows for `(d, k)`
with their average, so the lookup returns the mean of the matching
prices, or nothing when no row matches. -/
def stockPrice? (prices : List (PriceRec K)) (d : ℤ) (k : K) : Option ℚ :=
  match matchingPrices prices d k with
  | [] => none
  | p :: ps => some (((p :: ps).sum) / (p :: ps).length)

/-- Execute one order in the composite-key variant
(`backtester_stock.py`): lookup through the averaged oracle, raising the
`ValueError` when the key is absent. -/
def execOrderStock (prices : List (PriceRec K)) (d : ℤ) (s : BtState K) (o : Order K) :
    Except (BtError K) (BtState K) :=
  match stockPrice? prices d o.key with
  | none => .error (.priceNotFound d o.key)
  | some p => .ok ⟨s.cash - p * o.shares, updatePos s.positions o.key o.shares⟩

/-- The mark-to-market value one held entry contributes to the day's
invested capital: zero when `(d, k)` has no price row (the membership
test fails and the entry is skipped), the share count times the looked-up
price otherwise. -/
def posValue (prices : List (PriceRec K)) (d : ℤ) (kv : K × ℚ) : ℚ :=
  match matchingPrices prices d kv.1 with
  | [] => 0
  | p :: _ => kv.2 * p

/-- `invested_capital`: the sum of the mark-to-market contributions of
the positions dictionary. -/
def investedCapital (prices : List (PriceRec K)) (d : ℤ) (l : List (K × ℚ)) : ℚ :=
  (l.map (posValue prices d)).sum

/-- The holdings snapshot of the simple-key variant: the dict
comprehension keeps entries with `value > 0`. -/
def filteredPositions (l : List (K × ℚ)) : List (K × ℚ) :=
  l.filter (fun kv => decide (0 < kv.2))

/-- The holdings snapshot of the composite-key variant: the dict
comprehension keeps entries with `v != 0` and stringifies keys. -/
def stockSnapshot [ToString K] (l : List (K × ℚ)) : List (String × ℚ) :=
  (l.filter (fun kv => decide (kv.2 ≠ 0))).map (fun kv => (toString kv.1, kv.2))

/-- The duplicate check of `backtester.py`:
`price_df.duplicated(subset=[date, deal_id], keep=False).any()` —
true exactly when some row's `(date, key)` occurs in at least two rows,
in which case the warning is printed. -/
def hasDuplicateWarning (prices : List (PriceRec K)) : Bool :=
  prices.any (fun r => decide (2 ≤ (matchingPrices prices r.date r.key).length))

/-- The day's order batch: the rows of `orders_df` whose date is the
current date, in original order (`groupby(date)` preserves the rows of a
group in sequence). -/
def ordersOn (orders : List (Order K)) (d : ℤ) : List (Order K) :=
  orders.filter (fun o => decide (o.date = d))

/-- The inner for-loop of the simulation: execute the day's orders in
sequence, threading the state, stopping at the first raised exception. -/
def execDay (prices : List (PriceRec K)) (d : ℤ) (s : BtState K) :
    List (Order K) → Except (BtError K) (BtState K)
  | [] => .ok s
  | o :: os =>
      match execOrder prices d s o with
      | .error e => .error e
      | .ok s' => execDay prices d s' os

/-- The trading calendar: `sorted(price_df[date].unique())`. -/
def allDates (prices : List (PriceRec K)) : List ℤ :=
  List.insertionSort (fun a b => a ≤ b) ((prices.map PriceRec.date).dedup)

/-- The daily simulation loop of `backtester.py`: per date, execute the
date's orders, then append the valuation record
`{date, value = cash + invested, invested_capital, holdings}`. -/
def runDays (prices : List (PriceRec K)) (orders : List (Order K)) :
    List ℤ → BtState K → Except (BtError K) (List (TraceRec K))
  | [], _ => .ok []
  | d :: ds, s =>
      match execDay prices d s (ordersOn orders d) with
      | .error e => .error e
      | .ok s' =>
          match runDays prices orders ds s' with
          | .error e => .error e
          | .ok t =>
              .ok (⟨d, s'.cash + investedCapital prices d s'.positions,
                    investedCapital prices d s'.positions,
                    filteredPositions s'.positions⟩ :: t)

/-- The state the loop reaches after a list of dates, without the trace
rows — the cash and positions the engine holds at that point. -/
def runDaysState (prices : List (PriceRec K)) (orders : List (Order K)) :
    List ℤ → BtState K → Except (BtError K) (BtState K)
  | [], s => .ok s
  | d :: ds, s =>
      match execDay prices d s (ordersOn orders d) with
      | .error e => .error e
      | .ok s' => runDaysState prices orders ds s'

/-- `backtest(orders_df, price_df, initial_capital)` of `backtester.py`:
run the daily loop over the trading calendar starting from an empty
ledger and the initial cash, returning the valuation trace. -/
def backtest (orders : List (Order K)) (prices : List (PriceRec K))
    (initialCapital : ℚ) : Except (BtError K) (List (TraceRec K)) :=
  runDays prices orders (allDates prices) ⟨initialCapital, []⟩

deriving instance DecidableEq for Except

example : backtest (K := ℤ) [⟨1, 0, 100⟩] [⟨1, 0, 150⟩] 100000 =
    .ok [⟨1, 100000, 15000, [(0, 100)]⟩] := by
  norm_num [backtest, runDays, execDay, execOrder, matchingPrices, allDates,
    List.insertionSort, List.orderedInsert, List.dedup, ordersOn, updatePos,
    investedCapital, posValue, filteredPositions]

/-- `get_next_trading_day` of `strategy.py`: scan the trading dates in
order and return the first one strictly greater than `date`, or none. -/
def get_next_trading_day (date : ℤ) : List ℤ → Option ℤ
  | [] => none
  | d :: ds => if d > date then some d else get_next_trading_day date ds

/-- The for-loop of `get_previous_trading_day`: remember the last date
seen that is strictly less than `date`, breaking at the first that is
not. -/
def prevTradingDayLoop (date : ℤ) (prev : Option ℤ) : List ℤ → Option ℤ
  | [] => prev
  | d :: ds => if d < date then prevTradingDayLoop date (some d) ds else prev

/-- `get_previous_trading_day` of `strategy.py`: the loop above started
with `prev = None`. -/
def get_previous_trading_day (date : ℤ) (l : List ℤ) : Option ℤ :=
  prevTradingDayLoop date none l

/-- A pandas date column as the caller sees it: raw strings, or parsed
datetime values. -/
inductive DateColumn where
  | strings (vals : List String)
  | datetimes (vals : List ℤ)
deriving DecidableEq

/-- The in-place date normalization both backtest variants perform on
the caller's frames: a column that is not already of datetime dtype is
overwritten with `pd.to_datetime` of its values. -/
def toDatetimeColumn (parse : String → ℤ) : DateColumn → DateColumn
  | .strings vs => .datetimes (vs.map parse)
  | .datetimes vs => .datetimes vs

/-- The in-place column renaming of the composite-key variant: the
`prc` column becomes `price` and the `deal_index` column becomes
`deal_id`, each when present. -/
def renameStockColumns (cols : List String) : List String :=
  let cols1 := if cols.contains "prc" then
    cols.map (fun c => if c = "prc" then "price" else c) else cols
  if cols1.contains "deal_index" then
    cols1.map (fun c => if c = "deal_index" then "deal_id" else c) else cols1

/-- Updating a key reads back as the old count plus the order quantity. -/
theorem getPos_updatePos_self (l : List (K × ℚ)) (k : K) (q : ℚ) :
    getPos (updatePos l k q) k = getPos l k + q := by
  induction l with
  | nil => simp [updatePos, getPos]
  | cons kv rest ih =>
    by_cases h : kv.1 = k
    · simp [updatePos, getPos, h]
    · simp [updatePos, getPos, h, ih]

/-- Updating a key leaves every other key's count unchanged. -/
theorem getPos_updatePos_ne (l : List (K × ℚ)) (k : K) (q : ℚ) (k' : K)
    (h : k' ≠ k) : getPos (updatePos l k q) k' = getPos l k' := by
  induction l with
  | nil => simp [updatePos, getPos, Ne.symm h]
  | cons kv rest ih =>
    by_cases hh : kv.1 = k
    · simp [updatePos, getPos, hh, Ne.symm h]
    · by_cases hk' : kv.1 = k'
      · simp [updatePos, getPos, hh, hk', h]
      · simp [updatePos, getPos, hh, hk', ih]

/-- The keys after an update are the old keys together with the updated
key. -/
theorem mem_keysOf_updatePos (l : List (K × ℚ)) (k : K) (q : ℚ) (k' : K) :
    k' ∈ keysOf (updatePos l k q) ↔ k' ∈ keysOf l ∨ k' = k := by
  induction l with
  | nil => simp [updatePos, keysOf, eq_comm]
  | cons kv rest ih =>
    by_cases h : kv.1 = k
    · simp only [updatePos, keysOf, h, if_pos, List.map_cons, List.mem_cons] at *
      tauto
    · simp only [updatePos, keysOf, h, if_neg, List.map_cons, List.mem_cons,
        not_false_iff] at *
      tauto

/-- Updates preserve the no-duplicate-keys invariant of the dictionary. -/
theorem nodupKeys_updatePos (l : List (K × ℚ)) (k : K) (q : ℚ)
    (h : NoDupKeys l) : NoDupKeys (updatePos l k q) := by
  induction l with
  | nil => simp [updatePos, NoDupKeys]
  | cons kv rest ih =>
    simp only [NoDupKeys, List.map_cons, List.nodup_cons] at h
    by_cases hh : kv.1 = k
    · simpa [updatePos, NoDupKeys, hh] using h
    · simp only [updatePos, hh, if_neg, not_false_iff, NoDupKeys, List.map_cons,
        List.nodup_cons]
      refine ⟨?_, ih h.2⟩
      rw [show (updatePos rest k q).map Prod.fst = keysOf (updatePos rest k q) from rfl]
      rw [mem_keysOf_updatePos]
      push_neg
      exact ⟨fun hc => h.1 (by simpa [keysOf] using hc), hh⟩

/-- In a dictionary without duplicate keys, a pair is an entry exactly
when its key is present and reads back to its value. -/
theorem mem_pos_iff (l : List (K × ℚ)) (h : NoDupKeys l) (k : K) (v : ℚ) :
    (k, v) ∈ l ↔ (k ∈ keysOf l ∧ getPos l k = v) := by
  induction l with
  | nil => simp [keysOf, getPos]
  | cons kv rest ih =>
    obtain ⟨k1, v1⟩ := kv
    simp only [NoDupKeys, List.map_cons, List.nodup_cons] at h
    by_cases hh : k1 = k
    · subst hh
      have hnotin : (k1, v) ∉ rest := fun hc => h.1 (List.mem_map_of_mem _ hc)
      have hget : getPos ((k1, v1) :: rest) k1 = v1 := by simp [getPos]
      have hkey : k1 ∈ keysOf ((k1, v1) :: rest) := by simp [keysOf]
      constructor
      · intro hmem
        rcases List.mem_cons.mp hmem with heq | hc
        · have hv : v = v1 := ((Prod.mk.injEq _ _ _ _).mp heq).2
          exact ⟨hkey, by rw [hget, hv]⟩
        · exact absurd hc hnotin
      · rintro ⟨-, hv⟩
        rw [hget] at hv
        exact List.mem_cons.mpr (Or.inl (by rw [hv]))
    · have hkeys : (k ∈ keysOf ((k1, v1) :: rest)) ↔ k ∈ keysOf rest := by
        simp only [keysOf, List.map_cons, List.mem_cons]
        constructor
        · rintro (hc | hc)
          · exact absurd hc.symm hh
          · exact hc
        · exact fun hc => Or.inr hc
      have hget : getPos ((k1, v1) :: rest) k = getPos rest k := by
        simp [getPos, hh]
      have hmem : ((k, v) ∈ (k1, v1) :: rest) ↔ (k, v) ∈ rest := by
        simp only [List.mem_cons]
        constructor
        · rintro (heq | hc)
          · exact absurd ((Prod.mk.injEq _ _ _ _).mp heq).1.symm hh
          · exact hc
        · exact fun hc => Or.inr hc
      rw [hmem, hkeys, hget, ih h.2]

/-- Two no-duplicate-key dictionaries that agree on key membership and
on every read are permutations of one another (the list counterpart of
Python dict equality). -/
theorem pos_perm_of_ext (l₁ l₂ : List (K × ℚ)) (h₁ : NoDupKeys l₁)
    (h₂ : NoDupKeys l₂) (hg : ∀ k, getPos l₁ k = getPos l₂ k)
    (hk : ∀ k, k ∈ keysOf l₁ ↔ k ∈ keysOf l₂) : l₁.Perm l₂ := by
  have n₁ : l₁.Nodup := List.Nodup.of_map _ h₁
  have n₂ : l₂.Nodup := List.Nodup.of_map _ h₂
  rw [List.perm_ext_iff_of_nodup n₁ n₂]
  rintro ⟨k, v⟩
  rw [mem_pos_iff l₁ h₁ k v, mem_pos_iff l₂ h₂ k v, hg k, hk k]

/-- The fill price of the simple-key variant: the single matching row's
price (zero placeholder when the lookup is not a singleton; execution
only reaches it when it is). -/
def oraclePrice (prices : List (PriceRec K)) (d : ℤ) (k : K) : ℚ :=
  ((matchingPrices prices d k).head?).getD 0

/-- A day's batch is fully priceable: every order's key has exactly one
price row on that date. -/
def AllPriced (prices : List (PriceRec K)) (d : ℤ) (os : List (Order K)) : Prop :=
  ∀ o ∈ os, ∃ p, matchingPrices prices d o.key = [p]

/-- The notional the day's batch removes from cash: the sum of fill
price times signed quantity over the batch. -/
def dayCost (prices : List (PriceRec K)) (d : ℤ) (os : List (Order K)) : ℚ :=
  (os.map (fun o => oraclePrice prices d o.key * o.shares)).sum

/-- Executing a singleton-priced order fills it: cash drops by the
notional and the key's position grows by the signed quantity. -/
theorem execOrder_ok (prices : List (PriceRec K)) (d : ℤ) (s : BtState K)
    (o : Order K) (p : ℚ) (h : matchingPrices prices d o.key = [p]) :
    execOrder prices d s o =
      .ok ⟨s.cash - p * o.shares, updatePos s.positions o.key o.shares⟩ := by
  simp [execOrder, h]

/-- A fully priceable batch executes without an exception, and the
resulting state is the commutative-sum closed form: cash decreases by
the batch notional, each key's position grows by the sum of that key's
signed quantities, the key set grows by the batch's keys, and the
no-duplicate-keys invariant is preserved. -/
theorem execDay_ok (prices : List (PriceRec K)) (d : ℤ) :
    ∀ (os : List (Order K)) (s : BtState K), AllPriced prices d os →
    ∃ s', execDay prices d s os = .ok s' ∧
      s'.cash = s.cash - dayCost prices d os ∧
      (∀ k, getPos s'.positions k = getPos s.positions k +
        ((os.filter (fun o => decide (o.key = k))).map Order.shares).sum) ∧
      (∀ k, k ∈ keysOf s'.positions ↔ k ∈ keysOf s.positions ∨ k ∈ os.map Order.key) ∧
      (NoDupKeys s.positions → NoDupKeys s'.positions) := by
  intro os
  induction os with
  | nil =>
    intro s _
    exact ⟨s, rfl, by simp [dayCost], by simp, by simp, id⟩
  | cons o os ih =>
    intro s hA
    obtain ⟨p, hp⟩ := hA o (List.mem_cons_self o os)
    have hstep : execDay prices d s (o :: os) =
        execDay prices d ⟨s.cash - p * o.shares,
          updatePos s.positions o.key o.shares⟩ os := by
      simp [execDay, execOrder, hp]
    have hA' : AllPriced prices d os := fun o' ho' => hA o' (List.mem_cons_of_mem _ ho')
    obtain ⟨s', hs', hcash, hget, hkeys, hnd⟩ :=
      ih ⟨s.cash - p * o.shares, updatePos s.positions o.key o.shares⟩ hA'
    have hop : oraclePrice prices d o.key = p := by simp [oraclePrice, hp]
    refine ⟨s', by rw [hstep]; exact hs', ?_, ?_, ?_, ?_⟩
    · rw [hcash]
      simp only [dayCost, List.map_cons, List.sum_cons, hop]
      ring
    · intro k
      rw [hget k]
      by_cases hk : o.key = k
      · subst hk
        rw [getPos_updatePos_self]
        have hfc : (o :: os).filter (fun o1 => decide (o1.key = o.key)) =
            o :: os.filter (fun o1 => decide (o1.key = o.key)) := by
          simp [List.filter_cons]
        rw [hfc, List.map_cons, List.sum_cons]
        ring
      · rw [getPos_updatePos_ne _ _ _ _ (Ne.symm hk)]
        simp only [List.filter_cons, decide_eq_true_eq, if_neg hk]
    · intro k
      rw [hkeys k, mem_keysOf_updatePos]
      simp only [List.map_cons, List.mem_cons]
      tauto
    · intro hnds
      exact hnd (nodupKeys_updatePos _ _ _ hnds)

/-- A batch containing an unpriceable order raises an exception —
either the missing-price `ValueError` or the duplicate-row failure. -/
theorem execDay_err (prices : List (PriceRec K)) (d : ℤ) :
    ∀ (os : List (Order K)) (s : BtState K), ¬ AllPriced prices d os →
    ∃ e, execDay prices d s os = .error e := by
  intro os
  induction os with
  | nil =>
    intro s h
    exact absurd (fun o ho => absurd ho (List.not_mem_nil o)) h
  | cons o os ih =>
    intro s h
    cases hmp : matchingPrices prices d o.key with
    | nil =>
      exact ⟨.priceNotFound d o.key, by simp [execDay, execOrder, hmp]⟩
    | cons p ps =>
      cases ps with
      | nil =>
        have hrest : ¬ AllPriced prices d os := by
          intro hA
          refine h (fun o' ho' => ?_)
          rcases List.mem_cons.mp ho' with rfl | hmem
          · exact ⟨p, hmp⟩
          · exact hA o' hmem
        have hstep : execDay prices d s (o :: os) =
            execDay prices d ⟨s.cash - p * o.shares,
              updatePos s.positions o.key o.shares⟩ os := by
          simp [execDay, execOrder, hmp]
        obtain ⟨e, he⟩ := ih _ hrest
        exact ⟨e, by rw [hstep]; exact he⟩
      | cons p2 ps2 =>
        exact ⟨.duplicatePrice d o.key, by simp [execDay, execOrder, hmp]⟩

/-- The trace returned by the daily loop carries exactly the visited
dates, in order. -/
theorem runDays_dates (prices : List (PriceRec K)) (orders : List (Order K)) :
    ∀ (dates : List ℤ) (s : BtState K) (t : List (TraceRec K)),
    runDays prices orders dates s = .ok t → t.map TraceRec.date = dates := by
  intro dates
  induction dates with
  | nil =>
    intro s t h
    simp only [runDays] at h
    cases h
    simp
  | cons d ds ih =>
    intro s t h
    cases hE : execDay prices d s (ordersOn orders d) with
    | error e => simp [runDays, hE] at h
    | ok s' =>
      cases hR : runDays prices orders ds s' with
      | error e => simp [runDays, hE, hR] at h
      | ok t' =>
        simp only [runDays, hE, hR, Except.ok.injEq] at h
        subst h
        simp [ih _ _ hR]

/-- Each trace row's value is the cash the engine holds at the end of
that row's day plus the row's invested capital, and its invested capital
and holdings are computed from that day's positions. -/
theorem runDays_value (prices : List (PriceRec K)) (orders : List (Order K)) :
    ∀ (dates : List ℤ) (s : BtState K) (t : List (TraceRec K)),
    runDays prices orders dates s = .ok t →
    ∀ i (hi : i < t.length), ∃ s',
      runDaysState prices orders (dates.take (i+1)) s = .ok s' ∧
      (t.get ⟨i, hi⟩).value = s'.cash + (t.get ⟨i, hi⟩).invested ∧
      (t.get ⟨i, hi⟩).invested =
        investedCapital prices (t.get ⟨i, hi⟩).date s'.positions ∧
      (t.get ⟨i, hi⟩).holdings = filteredPositions s'.positions := by
  intro dates
  induction dates with
  | nil =>
    intro s t h i hi
    simp only [runDays] at h
    cases h
    exact absurd hi (by simp)
  | cons d ds ih =>
    intro s t h i hi
    cases hE : execDay prices d s (ordersOn orders d) with
    | error e => simp [runDays, hE] at h
    | ok s1 =>
      cases hR : runDays prices orders ds s1 with
      | error e => simp [runDays, hE, hR] at h
      | ok t' =>
        simp only [runDays, hE, hR, Except.ok.injEq] at h
        subst h
        cases i with
        | zero =>
          refine ⟨s1, ?_, by simp, by simp, by simp⟩
          simp [runDaysState, hE]
        | succ i =>
          have hi' : i < t'.length := by simpa using hi
          obtain ⟨s', hs', hv, hinv, hh⟩ := ih s1 t' hR i hi'
          refine ⟨s', ?_, ?_, ?_, ?_⟩
          · simp [runDaysState, hE, hs']
          · simpa using hv
          · simpa using hinv
          · simpa using hh

/-- A completed run reaches a well-defined state after any prefix of the
calendar. -/
theorem runDays_state_ok (prices : List (PriceRec K)) (orders : List (Order K)) :
    ∀ (dates : List ℤ) (s : BtState K) (t : List (TraceRec K)),
    runDays prices orders dates s = .ok t →
    ∀ n, ∃ s', runDaysState prices orders (dates.take n) s = .ok s' := by
  intro dates
  induction dates with
  | nil =>
    intro s t h n
    exact ⟨s, by simp [runDaysState]⟩
  | cons d ds ih =>
    intro s t h n
    cases hE : execDay prices d s (ordersOn orders d) with
    | error e => simp [runDays, hE] at h
    | ok s1 =>
      cases hR : runDays prices orders ds s1 with
      | error e => simp [runDays, hE, hR] at h
      | ok t' =>
        cases n with
        | zero => exact ⟨s, by simp [runDaysState]⟩
        | succ n =>
          obtain ⟨s', hs'⟩ := ih s1 t' hR n
          exact ⟨s', by simp [runDaysState, hE, hs']⟩

/-- A run whose order list schedules an unpriceable order on a visited
date aborts with an exception. -/
theorem runDays_err_of_unpriced (prices : List (PriceRec K))
    (orders : List (Order K)) (o : Order K) (ho : o ∈ orders)
    (hp : matchingPrices prices o.date o.key = []) :
    ∀ (dates : List ℤ) (s : BtState K), o.date ∈ dates →
    ∃ e, runDays prices orders dates s = .error e := by
  intro dates
  induction dates with
  | nil =>
    intro s h
    exact absurd h (List.not_mem_nil _)
  | cons d ds ih =>
    intro s hmem
    by_cases hd : o.date = d
    · have hbatch : ¬ AllPriced prices d (ordersOn orders d) := by
        intro hA
        have hoin : o ∈ ordersOn orders d := by
          simp [ordersOn, List.mem_filter, ho, hd]
        obtain ⟨p, hpp⟩ := hA o hoin
        rw [hd] at hp
        rw [hp] at hpp
        simp at hpp
      obtain ⟨e, he⟩ := execDay_err prices d (ordersOn orders d) s hbatch
      exact ⟨e, by simp [runDays, he]⟩
    · have hmem' : o.date ∈ ds := by
        rcases List.mem_cons.mp hmem with h1 | h1
        · exact absurd h1 hd
        · exact h1
      cases hE : execDay prices d s (ordersOn orders d) with
      | error e => exact ⟨e, by simp [runDays, hE]⟩
      | ok s1 =>
        obtain ⟨e, he⟩ := ih s1 hmem'
        exact ⟨e, by simp [runDays, hE, he]⟩

/-- Filtering the order list by a test that holds on every order dated
`d` does not change the day-`d` batch. -/
theorem ordersOn_filter (orders : List (Order K)) (P : Order K → Bool) (d : ℤ)
    (h : ∀ o : Order K, o.date = d → P o = true) :
    ordersOn (orders.filter P) d = ordersOn orders d := by
  induction orders with
  | nil => rfl
  | cons o os ih =>
    by_cases hd : o.date = d
    · have hP := h o hd
      simp only [ordersOn] at *
      simp [List.filter_cons, hP, hd, ih]
    · cases hP : P o with
      | false =>
        simp only [ordersOn] at *
        simp [List.filter_cons, hP, hd, ih]
      | true =>
        simp only [ordersOn] at *
        simp [List.filter_cons, hP, hd, ih]

/-- The daily loop reads the order list only through the per-date
batches of the visited dates. -/
theorem runDays_congr (prices : List (PriceRec K))
    (orders1 orders2 : List (Order K)) :
    ∀ (dates : List ℤ) (s : BtState K),
    (∀ d ∈ dates, ordersOn orders1 d = ordersOn orders2 d) →
    runDays prices orders1 dates s = runDays prices orders2 dates s := by
  intro dates
  induction dates with
  | nil => intro s _; rfl
  | cons d ds ih =>
    intro s h
    have hih : ∀ s', runDays prices orders1 ds s' = runDays prices orders2 ds s' :=
      fun s' => ih s' (fun d' hd' => h d' (List.mem_cons_of_mem _ hd'))
    cases hE : execDay prices d s (ordersOn orders2 d) with
    | error e => simp [runDays, h d (List.mem_cons_self d ds), hE]
    | ok s' => simp [runDays, h d (List.mem_cons_self d ds), hE, hih s']

/-- The trading calendar is strictly increasing: sorted by construction
and duplicate-free because it is built from deduplicated dates. -/
theorem allDates_sorted (prices : List (PriceRec K)) :
    (allDates prices).Pairwise (· < ·) := by
  have h1 : (allDates prices).Sorted (· ≤ ·) := List.sorted_insertionSort _ _
  have h2 : (allDates prices).Nodup :=
    (List.perm_insertionSort (fun a b => a ≤ b)
      ((prices.map PriceRec.date).dedup)).symm.nodup (List.nodup_dedup _)
  exact h1.lt_of_le h2

/-- The trading calendar holds exactly the dates that occur in the
price data. -/
theorem allDates_mem (prices : List (PriceRec K)) :
    ∀ d, d ∈ allDates prices ↔ ∃ r ∈ prices, r.date = d := by
  intro d
  rw [allDates,
    (List.perm_insertionSort (fun a b => a ≤ b)
      ((prices.map PriceRec.date).dedup)).mem_iff,
    List.mem_dedup]
  exact List.mem_map

/-- Claim C1: applying an order with signed quantity `q` at looked-up
price `p` changes cash by exactly `-q*p`, changes the ledger entry of
the order's key by exactly `+q`, and leaves every other key's entry
unchanged — in the simple-key variant and in the composite-key variant
alike. -/
theorem c1_order_application (prices : List (PriceRec K)) (d : ℤ) (s : BtState K)
    (o : Order K) (p : ℚ) :
    (matchingPrices prices d o.key = [p] →
      ∃ s', execOrder prices d s o = .ok s' ∧
        s'.cash = s.cash - o.shares * p ∧
        getPos s'.positions o.key = getPos s.positions o.key + o.shares ∧
        ∀ k, k ≠ o.key → getPos s'.positions k = getPos s.positions k) ∧
    (stockPrice? prices d o.key = some p →
      ∃ s', execOrderStock prices d s o = .ok s' ∧
        s'.cash = s.cash - o.shares * p ∧
        getPos s'.positions o.key = getPos s.positions o.key + o.shares ∧
        ∀ k, k ≠ o.key → getPos s'.positions k = getPos s.positions k) := by
  constructor
  · intro h
    refine ⟨_, execOrder_ok prices d s o p h, ?_, ?_, ?_⟩
    · show s.cash - p * o.shares = s.cash - o.shares * p
      ring
    · exact getPos_updatePos_self _ _ _
    · exact fun k hk => getPos_updatePos_ne _ _ _ _ hk
  · intro h
    refine ⟨⟨s.cash - p * o.shares, updatePos s.positions o.key o.shares⟩, ?_, ?_, ?_, ?_⟩
    · simp [execOrderStock, h]
    · show s.cash - p * o.shares = s.cash - o.shares * p
      ring
    · exact getPos_updatePos_self _ _ _
    · exact fun k hk => getPos_updatePos_ne _ _ _ _ hk

/-- Claim C1 witness: a concrete buy of 3 shares at price 10 from cash
100. -/
theorem c1_order_application_witness :
    ∃ s', execOrder (K := ℤ) [⟨1, 0, 10⟩] 1 ⟨100, []⟩ ⟨1, 0, 3⟩ = .ok s' ∧
      s'.cash = (100 : ℚ) - 3 * 10 ∧
      getPos s'.positions 0 = getPos ([] : List (ℤ × ℚ)) 0 + 3 ∧
      ∀ k, k ≠ (0 : ℤ) → getPos s'.positions k = getPos ([] : List (ℤ × ℚ)) k := by
  have h := (c1_order_application (K := ℤ) [⟨1, 0, 10⟩] 1 ⟨100, []⟩ ⟨1, 0, 3⟩ 10).1
    (by norm_num [matchingPrices])
  simpa using h

/-- Claim C2: an order whose `(date, key)` has no price row raises the
fatal `ValueError` whose message names the date and the key, and aborts
the whole run when the order sits on a calendar date; a held position
whose `(date, key)` has no price row raises nothing and contributes
exactly zero to that day's invested capital. -/
theorem c2_missing_price [ToString K] (prices : List (PriceRec K)) (d : ℤ) (k : K)
    (h : matchingPrices prices d k = []) :
    (∀ (s : BtState K) (o : Order K), o.key = k →
      execOrder prices d s o = .error (.priceNotFound d k) ∧
      errorText (BtError.priceNotFound d k) =
        "Price not found for date " ++ toString d ++ " and event_id " ++ toString k) ∧
    (∀ (orders : List (Order K)) (cap : ℚ) (o : Order K),
      o ∈ orders → o.date = d → o.key = k → d ∈ allDates prices →
      ∃ e, backtest orders prices cap = .error e) ∧
    (∀ (q : ℚ) (l : List (K × ℚ)),
      investedCapital prices d ((k, q) :: l) = investedCapital prices d l) := by
  refine ⟨?_, ?_, ?_⟩
  · intro s o hk
    subst hk
    exact ⟨by simp [execOrder, h], rfl⟩
  · intro orders cap o ho hod hk hcal
    have hp : matchingPrices prices o.date o.key = [] := by
      rw [hod, hk]
      exact h
    have hdd : o.date ∈ allDates prices := by rw [hod]; exact hcal
    exact runDays_err_of_unpriced prices orders o ho hp (allDates prices) _ hdd
  · intro q l
    simp [investedCapital, posValue, h]

/-- Claim C2 witness: an empty price table, an order for key 0 on date
1, and a held entry for key 0. -/
theorem c2_missing_price_witness :
    execOrder (K := ℤ) [] 1 ⟨100, []⟩ ⟨1, 0, 3⟩ = .error (.priceNotFound 1 0) ∧
    investedCapital (K := ℤ) [] 1 [(0, 5)] = investedCapital (K := ℤ) [] 1 [] := by
  have h := c2_missing_price (K := ℤ) [] 1 0 (by decide)
  exact ⟨(h.1 ⟨100, []⟩ ⟨1, 0, 3⟩ rfl).1, h.2.2 5 []⟩

/-- Claim C3 counterexample: the order dated 2 sits on no trading
calendar date (the calendar from the price data is `[1]`), yet the
simulation completes normally with an untouched portfolio instead of
failing. -/
theorem c3_counterexample :
    backtest (K := ℤ) [⟨2, 0, 5⟩] [⟨1, 0, 10⟩] 100 = .ok [⟨1, 100, 0, []⟩] ∧
    allDates (K := ℤ) [⟨1, 0, 10⟩] = [1] := by
  constructor
  · norm_num [backtest, runDays, execDay, matchingPrices, allDates,
      List.insertionSort, List.orderedInsert, List.dedup, ordersOn,
      investedCapital, posValue, filteredPositions]
  · norm_num [allDates, List.insertionSort, List.orderedInsert, List.dedup]

/-- Claim C3 (amended): an order on a trading calendar date whose key
has no price row on that date makes the simulation fail; but an order
whose date is not a calendar date at all is silently ignored — the run
is identical to the run with all such orders removed, so it completes
normally whenever the rest does. -/
theorem c3_amended (prices : List (PriceRec K)) (orders : List (Order K)) (cap : ℚ) :
    (∀ o ∈ orders, o.date ∈ allDates prices →
      matchingPrices prices o.date o.key = [] →
      ∃ e, backtest orders prices cap = .error e) ∧
    backtest (orders.filter (fun o => decide (o.date ∈ allDates prices))) prices cap =
      backtest orders prices cap := by
  constructor
  · intro o ho hd hp
    exact runDays_err_of_unpriced prices orders o ho hp (allDates prices) _ hd
  · exact runDays_congr prices _ orders (allDates prices) _ (fun d hd =>
      ordersOn_filter orders _ d (fun o hod => by simp [hod, hd]))

/-- Claim C3 amended witness: an order for the unpriced key 7 on the
calendar date 1 aborts the concrete run. -/
theorem c3_amended_witness :
    ∃ e, backtest (K := ℤ) [⟨1, 7, 5⟩] [⟨1, 0, 10⟩] 100 = .error e := by
  refine (c3_amended (K := ℤ) [⟨1, 0, 10⟩] [⟨1, 7, 5⟩] 100).1 ⟨1, 7, 5⟩ (by decide) ?_ (by decide)
  norm_num [allDates, List.insertionSort, List.orderedInsert, List.dedup]

/-- Claim C4 counterexample: after a single short sale of 5 shares the
ledger holds the nonzero entry `(0, -5)`, yet the day's reported
holdings snapshot is empty — the simple-key variant's snapshot filter
keeps only strictly positive counts, so it does not contain every
nonzero (short) entry. -/
theorem c4_counterexample :
    backtest (K := ℤ) [⟨1, 0, -5⟩] [⟨1, 0, 10⟩] 100 = .ok [⟨1, 100, -50, []⟩] ∧
    runDaysState (K := ℤ) [⟨1, 0, 10⟩] [⟨1, 0, -5⟩]
      (allDates (K := ℤ) [⟨1, 0, 10⟩]) ⟨100, []⟩ = .ok ⟨150, [(0, -5)]⟩ ∧
    getPos [((0 : ℤ), (-5 : ℚ))] 0 = -5 ∧ ((-5 : ℚ) ≠ 0) := by
  refine ⟨?_, ?_, by norm_num [getPos], by norm_num⟩
  · norm_num [backtest, runDays, execDay, execOrder, matchingPrices, allDates,
      List.insertionSort, List.orderedInsert, List.dedup, ordersOn, updatePos,
      investedCapital, posValue, filteredPositions]
  · norm_num [runDaysState, execDay, execOrder, matchingPrices, allDates,
      List.insertionSort, List.orderedInsert, List.dedup, ordersOn, updatePos]

/-- Claim C4 (amended): the composite-key variant's snapshot contains
exactly the stringified ledger entries with nonzero count, shorts
included; the simple-key variant's snapshot contains exactly the
entries with strictly positive count, so zero and short entries are
both filtered from it; and in both variants ledger entries are never
deleted — an update only ever grows the key set, zero counts included. -/
theorem c4_amended [ToString K] :
    (∀ (l : List (K × ℚ)) (k : K) (v : ℚ),
      (k, v) ∈ filteredPositions l ↔ ((k, v) ∈ l ∧ 0 < v)) ∧
    (∀ (l : List (K × ℚ)) (k : K) (v : ℚ),
      (((k, v) ∈ l ∧ v ≠ 0) → (toString k, v) ∈ stockSnapshot l) ∧
      (∀ str : String, (str, v) ∈ stockSnapshot l →
        ∃ k', toString k' = str ∧ (k', v) ∈ l ∧ v ≠ 0)) ∧
    (∀ (l : List (K × ℚ)) (k : K) (q : ℚ) (k' : K),
      k' ∈ keysOf (updatePos l k q) ↔ (k' ∈ keysOf l ∨ k' = k)) := by
  refine ⟨?_, ?_, fun l k q k' => mem_keysOf_updatePos l k q k'⟩
  · intro l k v
    simp [filteredPositions, List.mem_filter]
  · intro l k v
    constructor
    · rintro ⟨hmem, hv⟩
      exact List.mem_map_of_mem _ (List.mem_filter.mpr ⟨hmem, by simpa using hv⟩)
    · intro str hmem
      obtain ⟨kv, hkv, heq⟩ := List.mem_map.mp hmem
      obtain ⟨hin, hne⟩ := List.mem_filter.mp hkv
      obtain ⟨h1, h2⟩ := Prod.mk.injEq _ _ _ _ ▸ heq
      refine ⟨kv.1, h1, ?_, ?_⟩
      · rw [← h2]
        simpa using hin
      · rw [← h2]
        simpa using hne

/-- Claim C4 amended witness: a positive entry survives the simple
snapshot filter. -/
theorem c4_amended_witness :
    ((0 : ℤ), (3 : ℚ)) ∈ filteredPositions [((0 : ℤ), (3 : ℚ))] := by
  exact ((c4_amended (K := ℤ)).1 [(0, 3)] 0 3).mpr ⟨by simp, by norm_num⟩

/-- Claim C5 counterexample: with two price rows 10 and 20 for the same
`(date, key)`, the strategy-module variant fills a 1-share order at the
first duplicate row (price 10, leaving cash 90), raising no error and
not resolving the duplicates (the deterministic average would leave
cash 85). -/
theorem c5_counterexample :
    execOrderStrat (K := ℤ) [⟨1, 0, 10⟩, ⟨1, 0, 20⟩] 1 ⟨100, []⟩ ⟨1, 0, 1⟩ =
      .ok ⟨90, [(0, 1)]⟩ ∧
    matchingPrices (K := ℤ) [⟨1, 0, 10⟩, ⟨1, 0, 20⟩] 1 0 = [10, 20] ∧
    ((90 : ℚ) ≠ 100 - ((10 + 20) / 2) * 1) := by
  refine ⟨?_, ?_, by norm_num⟩
  · norm_num [execOrderStrat, matchingPrices, updatePos]
  · norm_num [matchingPrices]

/-- Claim C5 (amended): the composite-key variant resolves duplicates
deterministically — its oracle depends only on the multiset of price
rows, averaging duplicates; the simple-key variant surfaces them — the
duplicate warning fires and an order at a duplicated key aborts rather
than filling; but the strategy-module variant silently fills at the
first of the duplicated rows (while its lookup on a uniquely priced key
aborts with the scalar `.iloc` `AttributeError`). -/
theorem c5_amended (prices1 prices2 prices : List (PriceRec K)) (d : ℤ) (k : K) :
    (prices1.Perm prices2 → stockPrice? prices1 d k = stockPrice? prices2 d k) ∧
    (2 ≤ (matchingPrices prices d k).length →
      (∀ (s : BtState K) (o : Order K), o.key = k →
        execOrder prices d s o = .error (.duplicatePrice d k)) ∧
      hasDuplicateWarning prices = true) ∧
    (∀ (s : BtState K) (o : Order K) (p p2 : ℚ) (ps : List ℚ),
      matchingPrices prices d o.key = p :: p2 :: ps →
      execOrderStrat prices d s o =
        .ok ⟨s.cash - p * o.shares, updatePos s.positions o.key o.shares⟩) ∧
    (∀ (s : BtState K) (o : Order K) (p : ℚ),
      matchingPrices prices d o.key = [p] →
      execOrderStrat prices d s o = .error (.scalarIloc d o.key)) := by
  refine ⟨?_, ?_, ?_, ?_⟩
  · intro hperm
    have hmp : (matchingPrices prices1 d k).Perm (matchingPrices prices2 d k) :=
      (hperm.filter _).map _
    cases h1 : matchingPrices prices1 d k with
    | nil =>
      rw [h1] at hmp
      have h2 : matchingPrices prices2 d k = [] := hmp.symm.eq_nil
      simp [stockPrice?, h1, h2]
    | cons p ps =>
      cases h2 : matchingPrices prices2 d k with
      | nil =>
        rw [h1, h2] at hmp
        exact absurd hmp.eq_nil (by simp)
      | cons q qs =>
        rw [h1, h2] at hmp
        have hs : (p :: ps).sum = (q :: qs).sum := hmp.sum_eq
        have hl : (p :: ps).length = (q :: qs).length := hmp.length_eq
        simp only [stockPrice?, h1, h2]
        rw [hs, hl]
  · intro hlen
    constructor
    · intro s o hk
      subst hk
      cases hm : matchingPrices prices d o.key with
      | nil => rw [hm] at hlen; simp at hlen
      | cons p ps =>
        cases ps with
        | nil => rw [hm] at hlen; simp at hlen
        | cons p2 ps2 => simp [execOrder, hm]
    · have hne : prices.filter (fun r => decide (r.date = d ∧ r.key = k)) ≠ [] := by
        intro hnil
        rw [matchingPrices, hnil] at hlen
        simp at hlen
      obtain ⟨r, hr⟩ := List.exists_mem_of_ne_nil _ hne
      obtain ⟨hrin, hrP⟩ := List.mem_filter.mp hr
      have hrd : r.date = d ∧ r.key = k := by simpa using hrP
      rw [hasDuplicateWarning, List.any_eq_true]
      exact ⟨r, hrin, by rw [hrd.1, hrd.2]; simpa using hlen⟩
  · intro s o p p2 ps hm
    simp [execOrderStrat, hm]
  · intro s o p hm
    simp [execOrderStrat, hm]

/-- Claim C5 amended witness: the averaged oracle gives the same price
on the two orderings of the duplicated rows. -/
theorem c5_amended_witness :
    stockPrice? (K := ℤ) [⟨1, 0, 10⟩, ⟨1, 0, 20⟩] 1 0 =
      stockPrice? (K := ℤ) [⟨1, 0, 20⟩, ⟨1, 0, 10⟩] 1 0 := by
  exact (c5_amended (K := ℤ) [⟨1, 0, 10⟩, ⟨1, 0, 20⟩] [⟨1, 0, 20⟩, ⟨1, 0, 10⟩]
    [] 1 0).1 (List.Perm.swap _ _ _)

/-- Claim C6: a completed run's trace has exactly one record per
distinct date of the price data (its dates are precisely the trading
calendar), the dates are strictly increasing, and every record's total
value is the cash held at the end of that record's day plus the record's
invested capital. -/
theorem c6_trace_shape (orders : List (Order K)) (prices : List (PriceRec K))
    (cap : ℚ) (t : List (TraceRec K)) (h : backtest orders prices cap = .ok t) :
    t.map TraceRec.date = allDates prices ∧
    (∀ d, d ∈ allDates prices ↔ ∃ r ∈ prices, r.date = d) ∧
    (t.map TraceRec.date).Pairwise (· < ·) ∧
    ∀ i (hi : i < t.length), ∃ s',
      runDaysState prices orders ((allDates prices).take (i + 1)) ⟨cap, []⟩ = .ok s' ∧
      (t.get ⟨i, hi⟩).value = s'.cash + (t.get ⟨i, hi⟩).invested := by
  have hdates := runDays_dates prices orders (allDates prices) ⟨cap, []⟩ t h
  refine ⟨hdates, allDates_mem prices, ?_, ?_⟩
  · rw [hdates]
    exact allDates_sorted prices
  · intro i hi
    obtain ⟨s', h1, h2, _, _⟩ :=
      runDays_value prices orders (allDates prices) ⟨cap, []⟩ t h i hi
    exact ⟨s', h1, h2⟩

/-- Claim C6 witness: the one-day order-free run has a one-record trace
dated on the single trading date. -/
theorem c6_trace_shape_witness :
    List.map TraceRec.date ([⟨1, 5, 0, []⟩] : List (TraceRec ℤ)) =
      allDates (K := ℤ) [⟨1, 0, 10⟩] := by
  refine (c6_trace_shape (K := ℤ) [] [⟨1, 0, 10⟩] 5 [⟨1, 5, 0, []⟩] ?_).1
  norm_num [backtest, runDays, execDay, matchingPrices, allDates,
    List.insertionSort, List.orderedInsert, List.dedup, ordersOn,
    investedCapital, posValue, filteredPositions]

/-- Extensional agreement of two simulation states: equal cash, equal
read at every key, and the same key set — the list counterpart of
Python equality of the positions dictionaries. -/
def SRel (s1 s2 : BtState K) : Prop :=
  s1.cash = s2.cash ∧ (∀ k, getPos s1.positions k = getPos s2.positions k) ∧
  (∀ k, k ∈ keysOf s1.positions ↔ k ∈ keysOf s2.positions)

/-- Trace rows Python would compare equal: same date, value and
invested capital, and holdings dictionaries equal as key-value
collections. -/
def RecEquiv (r1 r2 : TraceRec K) : Prop :=
  r1.date = r2.date ∧ r1.value = r2.value ∧ r1.invested = r2.invested ∧
  r1.holdings.Perm r2.holdings

/-- Priceability of a day's batch only depends on the set of orders. -/
theorem allPriced_perm (prices : List (PriceRec K)) (d : ℤ)
    {os1 os2 : List (Order K)} (h : os1.Perm os2) :
    AllPriced prices d os1 ↔ AllPriced prices d os2 :=
  ⟨fun hA o ho => hA o (h.mem_iff.mpr ho), fun hA o ho => hA o (h.mem_iff.mp ho)⟩

/-- A day that executed without an exception was fully priceable. -/
theorem allPriced_of_execDay_ok {prices : List (PriceRec K)} {d : ℤ}
    {s s' : BtState K} {os : List (Order K)}
    (h : execDay prices d s os = .ok s') : AllPriced prices d os := by
  by_contra hA
  obtain ⟨e, he⟩ := execDay_err prices d os s hA
  rw [he] at h
  cases h

/-- Extensionally equal states with duplicate-free keys hold
permutation-equal positions dictionaries. -/
theorem srel_positions_perm {s1 s2 : BtState K} (hS : SRel s1 s2)
    (hn1 : NoDupKeys s1.positions) (hn2 : NoDupKeys s2.positions) :
    s1.positions.Perm s2.positions :=
  pos_perm_of_ext _ _ hn1 hn2 hS.2.1 hS.2.2

/-- Invested capital is a sum over the dictionary, hence invariant
under permutation of its entries. -/
theorem invested_eq_of_perm (prices : List (PriceRec K)) (d : ℤ)
    {l1 l2 : List (K × ℚ)} (h : l1.Perm l2) :
    investedCapital prices d l1 = investedCapital prices d l2 :=
  (h.map _).sum_eq

/-- Executing permuted batches from extensionally equal states yields
extensionally equal states: the day's cash delta and per-key position
deltas are sums, which are order-independent. -/
theorem execDay_perm (prices : List (PriceRec K)) (d : ℤ)
    {os1 os2 : List (Order K)} (hos : os1.Perm os2) {s1 s2 : BtState K}
    (hS : SRel s1 s2) (hn1 : NoDupKeys s1.positions)
    (hn2 : NoDupKeys s2.positions) {s1' : BtState K}
    (h1 : execDay prices d s1 os1 = .ok s1') :
    ∃ s2', execDay prices d s2 os2 = .ok s2' ∧ SRel s1' s2' ∧
      NoDupKeys s1'.positions ∧ NoDupKeys s2'.positions := by
  have hA1 : AllPriced prices d os1 := allPriced_of_execDay_ok h1
  have hA2 : AllPriced prices d os2 := (allPriced_perm prices d hos).mp hA1
  obtain ⟨s1'', e1, c1, g1, k1, n1⟩ := execDay_ok prices d os1 s1 hA1
  obtain ⟨s2', e2, c2, g2, k2, n2⟩ := execDay_ok prices d os2 s2 hA2
  have hs1 : s1'' = s1' := by
    rw [e1] at h1
    cases h1
    rfl
  subst hs1
  refine ⟨s2', e2, ⟨?_, ?_, ?_⟩, n1 hn1, n2 hn2⟩
  · rw [c1, c2, hS.1,
      show dayCost prices d os1 = dayCost prices d os2 from (hos.map _).sum_eq]
  · intro k
    rw [g1 k, g2 k, hS.2.1 k,
      show ((os1.filter (fun o => decide (o.key = k))).map Order.shares).sum =
        ((os2.filter (fun o => decide (o.key = k))).map Order.shares).sum from
        ((hos.filter _).map _).sum_eq]
  · intro k
    rw [k1 k, k2 k, hS.2.2 k]
    have hmk : k ∈ os1.map Order.key ↔ k ∈ os2.map Order.key := (hos.map _).mem_iff
    rw [hmk]

/-- Runs driven by permuted order lists from extensionally equal states
produce traces that agree record by record. -/
theorem runDays_perm (prices : List (PriceRec K))
    {orders1 orders2 : List (Order K)} (hperm : orders1.Perm orders2) :
    ∀ (dates : List ℤ) (s1 s2 : BtState K), SRel s1 s2 →
    NoDupKeys s1.positions → NoDupKeys s2.positions →
    ∀ t1, runDays prices orders1 dates s1 = .ok t1 →
    ∃ t2, runDays prices orders2 dates s2 = .ok t2 ∧ List.Forall₂ RecEquiv t1 t2 := by
  intro dates
  induction dates with
  | nil =>
    intro s1 s2 _ _ _ t1 h
    simp only [runDays] at h
    cases h
    exact ⟨[], rfl, List.Forall₂.nil⟩
  | cons d ds ih =>
    intro s1 s2 hS hn1 hn2 t1 h
    cases hE : execDay prices d s1 (ordersOn orders1 d) with
    | error e => simp [runDays, hE] at h
    | ok s1' =>
      have hbatch : (ordersOn orders1 d).Perm (ordersOn orders2 d) := hperm.filter _
      obtain ⟨s2', hE2, hS', hn1', hn2'⟩ := execDay_perm prices d hbatch hS hn1 hn2 hE
      cases hR : runDays prices orders1 ds s1' with
      | error e => simp [runDays, hE, hR] at h
      | ok t' =>
        simp only [runDays, hE, hR, Except.ok.injEq] at h
        subst h
        obtain ⟨t2', hR2, hF⟩ := ih s1' s2' hS' hn1' hn2' t' hR
        have hpos : s1'.positions.Perm s2'.positions :=
          srel_positions_perm hS' hn1' hn2'
        have hinv : investedCapital prices d s1'.positions =
            investedCapital prices d s2'.positions :=
          invested_eq_of_perm prices d hpos
        refine ⟨⟨d, s2'.cash + investedCapital prices d s2'.positions,
            investedCapital prices d s2'.positions,
            filteredPositions s2'.positions⟩ :: t2',
          by simp only [runDays, hE2, hR2], List.Forall₂.cons ?_ hF⟩
        exact ⟨rfl, by rw [hS'.1, hinv], hinv, hpos.filter _⟩

/-- The intermediate state after any date prefix is likewise
extensionally equal across permuted order lists. -/
theorem runDaysState_perm (prices : List (PriceRec K))
    {orders1 orders2 : List (Order K)} (hperm : orders1.Perm orders2) :
    ∀ (dates : List ℤ) (s1 s2 : BtState K), SRel s1 s2 →
    NoDupKeys s1.positions → NoDupKeys s2.positions →
    ∀ s1', runDaysState prices orders1 dates s1 = .ok s1' →
    ∃ s2', runDaysState prices orders2 dates s2 = .ok s2' ∧ SRel s1' s2' := by
  intro dates
  induction dates with
  | nil =>
    intro s1 s2 hS _ _ s1' h
    simp only [runDaysState] at h
    cases h
    exact ⟨s2, rfl, hS⟩
  | cons d ds ih =>
    intro s1 s2 hS hn1 hn2 s1' h
    cases hE : execDay prices d s1 (ordersOn orders1 d) with
    | error e => simp [runDaysState, hE] at h
    | ok sm =>
      have hbatch : (ordersOn orders1 d).Perm (ordersOn orders2 d) := hperm.filter _
      obtain ⟨sm2, hE2, hS', hn1', hn2'⟩ := execDay_perm prices d hbatch hS hn1 hn2 hE
      simp only [runDaysState, hE] at h
      obtain ⟨s2', h2, hSf⟩ := ih sm sm2 hS' hn1' hn2' s1' h
      exact ⟨s2', by simp only [runDaysState, hE2, h2], hSf⟩

/-- Claim C7: permuting the order list (in particular, the relative
order of the orders scheduled on any fixed date) leaves every daily
cash amount and every instrument-key's end-of-day position unchanged,
and therefore leaves every valuation trace record unchanged up to
Python dictionary equality of the holdings snapshots. -/
theorem c7_intraday_permutation (prices : List (PriceRec K))
    (os1 os2 : List (Order K)) (cap : ℚ) (t1 : List (TraceRec K))
    (hperm : os1.Perm os2) (h1 : backtest os1 prices cap = .ok t1) :
    (∃ t2, backtest os2 prices cap = .ok t2 ∧ List.Forall₂ RecEquiv t1 t2) ∧
    (∀ n, ∃ s1 s2,
      runDaysState prices os1 ((allDates prices).take n) ⟨cap, []⟩ = .ok s1 ∧
      runDaysState prices os2 ((allDates prices).take n) ⟨cap, []⟩ = .ok s2 ∧
      s1.cash = s2.cash ∧
      ∀ k, getPos s1.positions k = getPos s2.positions k) := by
  have hS0 : SRel (K := K) ⟨cap, []⟩ ⟨cap, []⟩ :=
    ⟨rfl, fun _ => rfl, fun _ => Iff.rfl⟩
  have hn0 : NoDupKeys ([] : List (K × ℚ)) := List.nodup_nil
  constructor
  · exact runDays_perm prices hperm (allDates prices) _ _ hS0 hn0 hn0 t1 h1
  · intro n
    obtain ⟨s1, hs1⟩ := runDays_state_ok prices os1 (allDates prices) ⟨cap, []⟩ t1 h1 n
    obtain ⟨s2, hs2, hS⟩ := runDaysState_perm prices hperm
      ((allDates prices).take n) _ _ hS0 hn0 hn0 s1 hs1
    exact ⟨s1, s2, hs1, hs2, hS.1, hS.2.1⟩

/-- Claim C7 witness: swapping two same-day orders leaves the one-day
trace record equal up to holdings-dictionary equality. -/
theorem c7_intraday_permutation_witness :
    ∃ t2, backtest (K := ℤ) [⟨1, 1, 3⟩, ⟨1, 0, 2⟩] [⟨1, 0, 10⟩, ⟨1, 1, 20⟩] 1000 =
        .ok t2 ∧
      List.Forall₂ RecEquiv [⟨1, 1000, 80, [(0, 2), (1, 3)]⟩] t2 := by
  refine (c7_intraday_permutation (K := ℤ) [⟨1, 0, 10⟩, ⟨1, 1, 20⟩]
    [⟨1, 0, 2⟩, ⟨1, 1, 3⟩] [⟨1, 1, 3⟩, ⟨1, 0, 2⟩] 1000
    [⟨1, 1000, 80, [(0, 2), (1, 3)]⟩] (List.Perm.swap _ _ _) ?_).1
  norm_num [backtest, runDays, execDay, execOrder, matchingPrices, allDates,
    List.insertionSort, List.orderedInsert, List.dedup, ordersOn, updatePos,
    investedCapital, posValue, filteredPositions]

/-- Specification of the forward scan: on a strictly increasing list it
returns the least element strictly greater than `X`, and `none` exactly
when no element exceeds `X`. -/
theorem next_trading_day_spec (X : ℤ) : ∀ (l : List ℤ), l.Pairwise (· < ·) →
    (∀ d, get_next_trading_day X l = some d →
      (d ∈ l ∧ X < d ∧ ∀ e ∈ l, X < e → d ≤ e)) ∧
    (get_next_trading_day X l = none ↔ ∀ d ∈ l, d ≤ X) := by
  intro l
  induction l with
  | nil =>
    intro _
    exact ⟨fun d h => by simp [get_next_trading_day] at h,
      by simp [get_next_trading_day]⟩
  | cons a as ih =>
    intro hp
    have hpa : ∀ e ∈ as, a < e := fun e he => (List.pairwise_cons.mp hp).1 e he
    have has : as.Pairwise (· < ·) := (List.pairwise_cons.mp hp).2
    obtain ⟨ihs, ihn⟩ := ih has
    by_cases hX : a > X
    · constructor
      · intro d hd
        simp only [get_next_trading_day, if_pos hX] at hd
        obtain rfl := Option.some.inj hd
        refine ⟨List.mem_cons_self a as, hX, ?_⟩
        intro e he _
        rcases List.mem_cons.mp he with rfl | hmem
        · exact le_refl _
        · exact le_of_lt (hpa e hmem)
      · simp only [get_next_trading_day, if_pos hX]
        constructor
        · intro h
          cases h
        · intro h
          exact absurd (h a (List.mem_cons_self a as)) (not_le.mpr hX)
    · constructor
      · intro d hd
        simp only [get_next_trading_day, if_neg hX] at hd
        obtain ⟨hmem, hlt, hmin⟩ := ihs d hd
        refine ⟨List.mem_cons_of_mem _ hmem, hlt, ?_⟩
        intro e he hXe
        rcases List.mem_cons.mp he with rfl | hmem2
        · exact absurd hXe hX
        · exact hmin e hmem2 hXe
      · simp only [get_next_trading_day, if_neg hX]
        rw [ihn]
        constructor
        · intro h e he
          rcases List.mem_cons.mp he with rfl | hm
          · exact not_lt.mp hX
          · exact h e hm
        · intro h e he
          exact h e (List.mem_cons_of_mem _ he)

/-- Specification of the backward scan with its accumulator: on a
strictly increasing list the loop either finds the greatest element
strictly below `X`, or leaves the accumulator when nothing is below
`X`. -/
theorem prev_loop_spec (X : ℤ) : ∀ (l : List ℤ), l.Pairwise (· < ·) →
    ∀ (prev : Option ℤ),
    ((∀ d ∈ l, X ≤ d) → prevTradingDayLoop X prev l = prev) ∧
    (∀ r, prevTradingDayLoop X prev l = some r →
      (r ∈ l ∧ r < X ∧ ∀ e ∈ l, e < X → e ≤ r) ∨
      (prev = some r ∧ ∀ d ∈ l, X ≤ d)) ∧
    (prevTradingDayLoop X prev l = none → (prev = none ∧ ∀ d ∈ l, X ≤ d)) := by
  intro l
  induction l with
  | nil =>
    intro _ prev
    exact ⟨fun _ => rfl, fun r h => Or.inr ⟨h, by simp⟩, fun h => ⟨h, by simp⟩⟩
  | cons a as ih =>
    intro hp prev
    have hpa : ∀ e ∈ as, a < e := fun e he => (List.pairwise_cons.mp hp).1 e he
    have has : as.Pairwise (· < ·) := (List.pairwise_cons.mp hp).2
    by_cases hX : a < X
    · have hstep : prevTradingDayLoop X prev (a :: as) =
          prevTradingDayLoop X (some a) as := by
        simp [prevTradingDayLoop, hX]
      obtain ⟨ihA, ihB, ihC⟩ := ih has (some a)
      refine ⟨?_, ?_, ?_⟩
      · intro h
        exact absurd hX (not_lt.mpr (h a (List.mem_cons_self a as)))
      · intro r hr
        rw [hstep] at hr
        rcases ihB r hr with ⟨hm, hlt, hmin⟩ | ⟨hpr, hall⟩
        · left
          refine ⟨List.mem_cons_of_mem _ hm, hlt, ?_⟩
          intro e he helt
          rcases List.mem_cons.mp he with rfl | hm2
          · exact le_of_lt (hpa r hm)
          · exact hmin e hm2 helt
        · obtain rfl := Option.some.inj hpr
          left
          refine ⟨List.mem_cons_self _ _, hX, ?_⟩
          intro e he helt
          rcases List.mem_cons.mp he with rfl | hm2
          · exact le_refl _
          · exact absurd helt (not_lt.mpr (hall e hm2))
      · intro hr
        rw [hstep] at hr
        obtain ⟨hpr, -⟩ := ihC hr
        cases hpr
    · have hXle : X ≤ a := not_lt.mp hX
      have hall : ∀ d ∈ a :: as, X ≤ d := by
        intro e he
        rcases List.mem_cons.mp he with rfl | hm
        · exact hXle
        · exact le_of_lt (lt_of_le_of_lt hXle (hpa e hm))
      have hstep : prevTradingDayLoop X prev (a :: as) = prev := by
        simp [prevTradingDayLoop, hX]
      refine ⟨fun _ => hstep, ?_, ?_⟩
      · intro r hr
        rw [hstep] at hr
        exact Or.inr ⟨hr, hall⟩
      · intro hr
        rw [hstep] at hr
        exact ⟨hr, hall⟩

/-- Claim C8: on a strictly increasing list of trading dates, the
next-trading-day query returns the earliest element strictly after `X`,
the previous-trading-day query returns the latest element strictly
before `X`, and both return `none` rather than an error when no such
element exists. -/
theorem c8_snapping_queries (l : List ℤ) (hl : l.Pairwise (· < ·)) (X : ℤ) :
    (∀ d, get_next_trading_day X l = some d →
      (d ∈ l ∧ X < d ∧ ∀ e ∈ l, X < e → d ≤ e)) ∧
    (get_next_trading_day X l = none ↔ ∀ d ∈ l, d ≤ X) ∧
    (∀ d, get_previous_trading_day X l = some d →
      (d ∈ l ∧ d < X ∧ ∀ e ∈ l, e < X → e ≤ d)) ∧
    (get_previous_trading_day X l = none ↔ ∀ d ∈ l, X ≤ d) := by
  obtain ⟨h1, h2⟩ := next_trading_day_spec X l hl
  obtain ⟨hA, hB, hC⟩ := prev_loop_spec X l hl none
  refine ⟨h1, h2, ?_, ?_⟩
  · intro d hd
    rw [get_previous_trading_day] at hd
    rcases hB d hd with h | ⟨h, -⟩
    · exact h
    · cases h
  · rw [get_previous_trading_day]
    constructor
    · intro h
      exact (hC h).2
    · intro h
      exact hA h

/-- Claim C8 witness: on the calendar `[1, 3]` with `X = 2`, the
next-day query is not `none` — indeed both characterizations hold. -/
theorem c8_snapping_queries_witness :
    get_next_trading_day 2 [1, 3] = none ↔ ∀ d ∈ [(1 : ℤ), 3], d ≤ 2 :=
  (c8_snapping_queries [1, 3] (by decide) 2).2.1

/-- Claim C9: the concrete scenario — capital 100000, buy 100 AAPL at
150 on day 1, price 160 on day 2, sell 100 at 160 on day 3 — yields the
three-record trace with values 100000, 101000, 101000, ending cash
101000 and ending position 0. -/
theorem c9_concrete_scenario :
    backtest (K := String) [⟨1, "AAPL", 100⟩, ⟨3, "AAPL", -100⟩]
      [⟨1, "AAPL", 150⟩, ⟨2, "AAPL", 160⟩, ⟨3, "AAPL", 160⟩] 100000 =
      .ok [⟨1, 100000, 15000, [("AAPL", 100)]⟩,
        ⟨2, 101000, 16000, [("AAPL", 100)]⟩,
        ⟨3, 101000, 0, []⟩] ∧
    runDaysState (K := String)
      [⟨1, "AAPL", 150⟩, ⟨2, "AAPL", 160⟩, ⟨3, "AAPL", 160⟩]
      [⟨1, "AAPL", 100⟩, ⟨3, "AAPL", -100⟩]
      (allDates (K := String)
        [⟨1, "AAPL", 150⟩, ⟨2, "AAPL", 160⟩, ⟨3, "AAPL", 160⟩])
      ⟨100000, []⟩ = .ok ⟨101000, [("AAPL", 0)]⟩ := by
  constructor <;>
    norm_num [backtest, runDays, runDaysState, execDay, execOrder,
      matchingPrices, allDates, List.insertionSort, List.orderedInsert,
      List.dedup, ordersOn, updatePos, investedCapital, posValue,
      filteredPositions]

/-- Claim C10: the engine mutates its caller's inputs — a string-typed
date column is overwritten in place with parsed datetimes, and the
composite-key variant renames the `prc` and `deal_index` columns in
place — so the caller's frames are not unchanged after a run. -/
theorem c10_frame_mutation :
    (∀ parse : String → ℤ,
      toDatetimeColumn parse (DateColumn.strings ["2025-01-05"]) ≠
        DateColumn.strings ["2025-01-05"]) ∧
    renameStockColumns ["date", "deal_index", "prc", "price_type"] =
      ["date", "deal_id", "price", "price_type"] ∧
    (["date", "deal_id", "price", "price_type"] ≠
      ["date", "deal_index", "prc", "price_type"]) := by
  refine ⟨?_, by decide, by decide⟩
  intro parse h
  simp [toDatetimeColumn] at h
